import Mathlib

set_option maxRecDepth 10000

/-!
Verification of the order canonicalization pipeline in
`src/examples/OrderExample.tsx`.

Embedding choices, used throughout:

* JavaScript numbers are modelled as exact rationals (`ℚ`).  The source's
  `toFixed(8)` / `parseFloat` round trip and the `1e-12` tolerance exist to
  absorb binary floating-point representation error; over `ℚ` the same
  definitions are reproduced literally (rounding to eight fractional digits,
  parsing the fixed string back, comparing with the tolerance), with
  `parseFloat` of a fixed-notation string being exact.
* JavaScript object keys that may be absent, present-with-`undefined`, or
  populated (the `limit?` / `trigger?` fields tested with the `in` operator
  and with truthiness) are modelled by the three-state type `JsOpt`.
* The optional `c` field of an order wire record, which is either entirely
  absent or a string, is modelled as `Option String` (`none` = key absent).
* `decimal.js`: `new Decimal(str).toString()` parses the decimal string and
  reprints its exact value with trailing zeros stripped, using exponent
  notation when the decimal exponent is ≤ -7 or ≥ 21, and dropping the sign
  of a zero value.  `decToChars` reproduces this for the strings produced by
  `toFixed(8)` (value `n·10⁻⁸` with an explicit sign).
* Digit extraction uses explicit structural fuel (400 decimal digits), which
  covers every finite IEEE double scaled by 10⁸.
-/

/-- The three error kinds of the pipeline (`PrecisionLoss`,
`InvalidCloidFormat`, `InvalidOrderType`), thrown in the source as
`Error` values with distinct messages. -/
inductive Err where
  | PrecisionLoss
  | InvalidCloidFormat
  | InvalidOrderType
deriving DecidableEq

deriving instance DecidableEq for Except

/-! ## Decimal digits and characters -/

/-- Little-endian base-10 digits of `n`, with explicit structural fuel. -/
def digitsFuel : ℕ → ℕ → List ℕ
  | 0, _ => []
  | _ + 1, 0 => []
  | fuel + 1, n + 1 => ((n + 1) % 10) :: digitsFuel fuel ((n + 1) / 10)

/-- Little-endian base-10 digits of `n`; fuel 400 covers every value with at
most 400 decimal digits, in particular every finite IEEE double scaled by
`10^8`. -/
def natDigits (n : ℕ) : List ℕ := digitsFuel 400 n

/-- The ASCII character of a decimal digit. -/
def digitChar : ℕ → Char
  | 0 => '0'
  | 1 => '1'
  | 2 => '2'
  | 3 => '3'
  | 4 => '4'
  | 5 => '5'
  | 6 => '6'
  | 7 => '7'
  | 8 => '8'
  | _ => '9'

/-- The numeric value of a decimal digit character. -/
def charDigit (c : Char) : ℕ := c.toNat - 48

/-- Whether a character is an ASCII decimal digit. -/
def isDigitCh (c : Char) : Bool := decide (48 ≤ c.toNat) && decide (c.toNat ≤ 57)

/-- Big-endian digit values rendered as characters. -/
def chs (ds : List ℕ) : List Char := ds.map digitChar

/-- `k` zero characters. -/
def zeros (k : ℕ) : List Char := List.replicate k '0'

/-- Value of a little-endian digit list. -/
def ofDigits10 : List ℕ → ℕ
  | [] => 0
  | d :: ds => d + 10 * ofDigits10 ds

/-- Value of a big-endian digit-character list. -/
def readNat (cs : List Char) : ℕ := ofDigits10 ((cs.map charDigit).reverse)

/-! ## A model of `parseFloat` on fully numeric strings

`parseFloat` accepts an optional sign, an integer part, an optional
fractional part and an optional exponent part.  The model below parses
exactly such strings (requiring the whole string to be consumed, which holds
for every string the encoder produces). -/

/-- Parse the digits of an exponent, requiring the rest of the input to be
exactly those digits. -/
def parseExpTail (sgn : ℤ) (cs : List Char) : Option ℤ :=
  if cs = [] then none
  else if cs.all isDigitCh then some (sgn * (readNat cs : ℤ)) else none

/-- Parse an exponent with an optional sign. -/
def parseExp (cs : List Char) : Option ℤ :=
  match cs with
  | [] => none
  | c :: r =>
    if c = '+' then parseExpTail 1 r
    else if c = '-' then parseExpTail (-1) r
    else parseExpTail 1 (c :: r)

/-- Parse an unsigned mantissa (digits, optionally followed by a point and
more digits), returning its value and the unconsumed input. -/
def parseMant (cs : List Char) : Option (ℚ × List Char) :=
  let I := cs.takeWhile isDigitCh
  let r := cs.dropWhile isDigitCh
  if I = [] then none
  else
    match r with
    | [] => some ((readNat I : ℚ), [])
    | c :: r2 =>
      if c = '.' then
        let F := r2.takeWhile isDigitCh
        let r3 := r2.dropWhile isDigitCh
        if F = [] then none
        else some ((readNat I : ℚ) + (readNat F : ℚ) / 10 ^ F.length, r3)
      else some ((readNat I : ℚ), c :: r2)

/-- Parse an unsigned numeric string (mantissa and optional exponent). -/
def parsePos (cs : List Char) : Option ℚ :=
  match parseMant cs with
  | none => none
  | some (m, r) =>
    match r with
    | [] => some m
    | c :: r2 =>
      if c = 'e' then (parseExp r2).map (fun ex => m * (10 : ℚ) ^ ex) else none

/-- Model of `parseFloat` on fully numeric decimal strings: optional minus
sign, then an unsigned numeric string. -/
def parseDec (s : String) : Option ℚ :=
  match s.toList with
  | [] => none
  | c :: cs => if c = '-' then (parsePos cs).map (fun q => -q) else parsePos (c :: cs)

/-! ## `Decimal.toString` on the rounded value

`new Decimal(rounded).toString()` where `rounded` is the `toFixed(8)` string
of value `±n·10⁻⁸`.  `decimal.js` stores the significant digits and decimal
exponent `e` of the value and prints exponent notation when `e ≤ -7` or
`e ≥ 21` (its defaults `toExpNeg`/`toExpPos`), plain positional notation
otherwise, never printing a sign on a zero value. -/

/-- The significant digits of `n` (big-endian, trailing zeros of `n`
stripped), as `decimal.js` stores the coefficient. -/
def sigOf (n : ℕ) : List ℕ := ((natDigits n).dropWhile (· == 0)).reverse

/-- Exponent notation `d[.ddd]e±E` for significant digits `sig` and decimal
exponent `e`. -/
def decSciChars (sig : List ℕ) (e : ℤ) : List Char :=
  chs (sig.take 1)
    ++ (if sig.length ≤ 1 then [] else '.' :: chs (sig.drop 1))
    ++ 'e' :: (if e < 0 then '-' :: chs ((natDigits e.natAbs).reverse)
               else '+' :: chs ((natDigits e.natAbs).reverse))

/-- Positional notation for significant digits `sig` and decimal exponent
`e`: pad with zeros on the right, insert a point, or prefix `0.` and
leading zeros. -/
def decFixedChars (sig : List ℕ) (e : ℤ) : List Char :=
  if 0 ≤ e then
    if sig.length ≤ e.toNat + 1 then chs sig ++ zeros (e.toNat + 1 - sig.length)
    else chs (sig.take (e.toNat + 1)) ++ '.' :: chs (sig.drop (e.toNat + 1))
  else '0' :: '.' :: (zeros (e.natAbs - 1) ++ chs sig)

/-- Characters of `Decimal.toString` for a non-zero value `n·10⁻⁸`
(exponent notation iff the decimal exponent is ≤ -7 or ≥ 21). -/
def decBodyChars (n : ℕ) : List Char :=
  if ((natDigits n).length : ℤ) - 9 ≤ -7 ∨ 21 ≤ ((natDigits n).length : ℤ) - 9 then
    decSciChars (sigOf n) (((natDigits n).length : ℤ) - 9)
  else decFixedChars (sigOf n) (((natDigits n).length : ℤ) - 9)

/-- Characters of `Decimal.toString` for the value `n·10⁻⁸`, negated when
`neg` is true (the sign of a zero value is dropped, as `toString` does). -/
def decToChars (neg : Bool) (n : ℕ) : List Char :=
  if n = 0 then ['0'] else if neg then '-' :: decBodyChars n else decBodyChars n

/-- `Decimal.toString` of the value `±n·10⁻⁸`. -/
def decToString (neg : Bool) (n : ℕ) : String := String.mk (decToChars neg n)

/-! ## `floatToWire` (source lines 86–95) -/

/-- The integer `n` selected by `Math.abs(x).toFixed(8)`: the closest `n` to
`|x|·10^8`, ties to the larger (ECMA-262 `Number.prototype.toFixed`, which
extracts the sign first). -/
def fixed8Num (x : ℚ) : ℤ := ⌊|x| * 10 ^ 8 + 1 / 2⌋

/-- Integer-part characters of a `toFixed` string. -/
def intChars (m : ℕ) : List Char := if m = 0 then ['0'] else chs ((natDigits m).reverse)

/-- Fraction-part characters of a `toFixed(8)` string: exactly eight digits,
zero-padded on the left. -/
def frac8Chars (m : ℕ) : List Char :=
  zeros (8 - (natDigits m).length) ++ chs ((natDigits m).reverse)

/-- Characters of `x.toFixed(8)`: sign of `x`, integer part, point, eight
fraction digits. -/
def toFixedChars8 (x : ℚ) : List Char :=
  (if x < 0 then ['-'] else []) ++ intChars ((fixed8Num x).toNat / 10 ^ 8)
    ++ '.' :: frac8Chars ((fixed8Num x).toNat % 10 ^ 8)

/-- The string `x.toFixed(8)` (the source's `rounded`). -/
def toFixedStr8 (x : ℚ) : String := String.mk (toFixedChars8 x)

/-- `parseFloat(rounded)`: the exact value of the `toFixed(8)` string,
`±fixed8Num x · 10⁻⁸` (a negative zero string parses to zero in `ℚ`). -/
def jsRound8 (x : ℚ) : ℚ :=
  (if x < 0 then -((fixed8Num x : ℚ)) else ((fixed8Num x : ℚ))) / 10 ^ 8

/-- `floatToWire` (source lines 86–95): round to eight fractional digits,
reject when the parsed-back rounded value differs from `x` by at least
`1e-12`, special-case a literal `"-0"` rounded string, and otherwise return
`new Decimal(rounded).toString()`. -/
def floatToWire (x : ℚ) : Except Err String :=
  if 1 / 10 ^ 12 ≤ |jsRound8 x - x| then .error .PrecisionLoss
  else if toFixedStr8 x = "-0" then .ok "0"
  else .ok (decToString (decide (x < 0)) (fixed8Num x).toNat)

/-! ## Concrete evaluation helpers

Rational arithmetic (`Rat.add`, `Rat.mul`, …) does not reduce during
elaboration (it goes through `Nat.gcd`), so concrete runs of `floatToWire`
are evaluated by bracketing the floor with `norm_num` and finishing the
discrete digit/string computation with `decide`. -/

theorem fixed8Num_eq_nonneg (x : ℚ) (n : ℤ) (hx : 0 ≤ x)
    (h1 : (n : ℚ) ≤ x * 10 ^ 8 + 1 / 2) (h2 : x * 10 ^ 8 + 1 / 2 < (n : ℚ) + 1) :
    fixed8Num x = n := by
  unfold fixed8Num
  rw [abs_of_nonneg hx]
  exact Int.floor_eq_iff.mpr ⟨h1, h2⟩

theorem fixed8Num_eq_neg (x : ℚ) (n : ℤ) (hx : x ≤ 0)
    (h1 : (n : ℚ) ≤ -x * 10 ^ 8 + 1 / 2) (h2 : -x * 10 ^ 8 + 1 / 2 < (n : ℚ) + 1) :
    fixed8Num x = n := by
  unfold fixed8Num
  rw [abs_of_nonpos hx]
  exact Int.floor_eq_iff.mpr ⟨h1, h2⟩

theorem jsRound8_eq (x : ℚ) (n : ℤ) (h : fixed8Num x = n) :
    jsRound8 x = (if x < 0 then -(n : ℚ) else (n : ℚ)) / 10 ^ 8 := by
  unfold jsRound8
  rw [h]

/-- The `toFixed(8)` string always has at least nine characters (integer
part, point, eight fraction digits), so it is never the literal `"-0"`;
the source's `rounded === "-0"` branch is dead code. -/
theorem toFixedChars8_len (x : ℚ) : 9 ≤ (toFixedChars8 x).length := by
  have h : 8 ≤ (frac8Chars ((fixed8Num x).toNat % 10 ^ 8)).length := by
    simp [frac8Chars, zeros, chs]
    omega
  unfold toFixedChars8
  rw [List.length_append, List.length_append, List.length_cons]
  omega

theorem toFixedStr8_ne_neg0 (x : ℚ) : toFixedStr8 x ≠ "-0" := by
  intro h
  have h2 : toFixedChars8 x = ['-', '0'] := congrArg String.data h
  have h3 : (toFixedChars8 x).length = 2 := by rw [h2]; rfl
  have h4 := toFixedChars8_len x
  omega

theorem floatToWire_ok_nonneg (x : ℚ) (n : ℤ) (hx : 0 ≤ x) (hn : fixed8Num x = n)
    (htol : |(n : ℚ) / 10 ^ 8 - x| < 1 / 10 ^ 12) :
    floatToWire x = .ok (decToString false n.toNat) := by
  have hlt : ¬ x < 0 := not_lt.mpr hx
  unfold floatToWire
  rw [jsRound8_eq x n hn, if_neg hlt, if_neg (not_le.mpr htol),
    if_neg (toFixedStr8_ne_neg0 x), hn, decide_eq_false hlt]

theorem floatToWire_ok_neg (x : ℚ) (n : ℤ) (hx : x < 0) (hn : fixed8Num x = n)
    (htol : |(-(n : ℚ)) / 10 ^ 8 - x| < 1 / 10 ^ 12) :
    floatToWire x = .ok (decToString true n.toNat) := by
  unfold floatToWire
  rw [jsRound8_eq x n hn, if_pos hx, if_neg (not_le.mpr htol),
    if_neg (toFixedStr8_ne_neg0 x), hn, decide_eq_true hx]

theorem floatToWire_err_eval (x : ℚ) (n : ℤ) (hn : fixed8Num x = n)
    (htol : 1 / 10 ^ 12 ≤ |(if x < 0 then -(n : ℚ) else (n : ℚ)) / 10 ^ 8 - x|) :
    floatToWire x = .error .PrecisionLoss := by
  unfold floatToWire
  rw [jsRound8_eq x n hn, if_pos htol]

/-- `floatToWire(0.001)` evaluates to `"0.001"`. -/
theorem floatToWire_milli : floatToWire (1 / 1000) = .ok "0.001" := by
  rw [floatToWire_ok_nonneg (1 / 1000) 100000 (by norm_num)
    (fixed8Num_eq_nonneg _ _ (by norm_num) (by norm_num) (by norm_num)) (by norm_num)]
  decide

/-- `floatToWire(90000)` evaluates to `"90000"`. -/
theorem floatToWire_90000 : floatToWire 90000 = .ok "90000" := by
  rw [floatToWire_ok_nonneg 90000 9000000000000 (by norm_num)
    (fixed8Num_eq_nonneg _ _ (by norm_num) (by norm_num) (by norm_num)) (by norm_num)]
  decide

/-- `floatToWire(1e-7)` evaluates to `"1e-7"` (exponent notation). -/
theorem floatToWire_em7 : floatToWire (1 / 10 ^ 7) = .ok "1e-7" := by
  rw [floatToWire_ok_nonneg (1 / 10 ^ 7) 10 (by norm_num)
    (fixed8Num_eq_nonneg _ _ (by norm_num) (by norm_num) (by norm_num)) (by norm_num)]
  decide

/-- `floatToWire(1e-13)` is accepted (rounding error 1e-13 < 1e-12) and
evaluates to `"0"`. -/
theorem floatToWire_em13 : floatToWire (1 / 10 ^ 13) = .ok "0" := by
  rw [floatToWire_ok_nonneg (1 / 10 ^ 13) 0 (by norm_num)
    (fixed8Num_eq_nonneg _ _ (by norm_num) (by norm_num) (by norm_num))
    (by rw [show ((0 : ℤ) : ℚ) / 10 ^ 8 - 1 / 10 ^ 13 = -(1 / 10 ^ 13) by norm_num,
      abs_neg, abs_of_nonneg (by norm_num)]; norm_num)]
  decide

/-- `floatToWire(-1e-13)` is accepted and evaluates to `"0"` (no sign). -/
theorem floatToWire_neg_em13 : floatToWire (-(1 : ℚ) / 10 ^ 13) = .ok "0" := by
  rw [floatToWire_ok_neg (-(1 : ℚ) / 10 ^ 13) 0 (by norm_num)
    (fixed8Num_eq_neg _ _ (by norm_num) (by norm_num) (by norm_num))
    (by rw [show -((0 : ℤ) : ℚ) / 10 ^ 8 - -(1 : ℚ) / 10 ^ 13 = 1 / 10 ^ 13 by norm_num,
      abs_of_nonneg (by norm_num)]; norm_num)]
  decide

example : floatToWire (123456 / 10 ^ 9) = .error .PrecisionLoss := by
  rw [floatToWire_err_eval (123456 / 10 ^ 9) 12346
    (fixed8Num_eq_nonneg _ _ (by norm_num) (by norm_num) (by norm_num))
    (by rw [if_neg (by norm_num : ¬ (123456 : ℚ) / 10 ^ 9 < 0),
      show ((12346 : ℤ) : ℚ) / 10 ^ 8 - 123456 / 10 ^ 9 = 1 / 250000000 by norm_num,
      abs_of_nonneg (by norm_num)]; norm_num)]

example : floatToWire (-(15 : ℚ) / 10 ^ 7) = .ok "-0.0000015" := by
  rw [floatToWire_ok_neg (-(15 : ℚ) / 10 ^ 7) 150 (by norm_num)
    (fixed8Num_eq_neg _ _ (by norm_num) (by norm_num) (by norm_num)) (by norm_num)]
  decide

example : floatToWire (15 / 10 ^ 8) = .ok "1.5e-7" := by
  rw [floatToWire_ok_nonneg (15 / 10 ^ 8) 15 (by norm_num)
    (fixed8Num_eq_nonneg _ _ (by norm_num) (by norm_num) (by norm_num)) (by norm_num)]
  decide

/-! ## Order data model (source lines 7–84)

`JsOpt` models a JavaScript optional object field: the key can be absent,
present with value `undefined`, or present with a value.  `keyPresent`
models the `in` operator; `jsRead` models property access (reading an
absent key yields `undefined`). -/

/-- Three-state JavaScript optional field. -/
inductive JsOpt (α : Type) where
  | absent
  | undef
  | val (a : α)
deriving DecidableEq

/-- The `in` operator: is the key present (even if its value is
`undefined`)? -/
def keyPresent {α : Type} : JsOpt α → Bool
  | .absent => false
  | _ => true

/-- Property access: reading an absent key yields `undefined`. -/
def jsRead {α : Type} : JsOpt α → JsOpt α
  | .absent => .undef
  | .undef => .undef
  | .val a => .val a

/-- Time-in-force (`"Alo" | "Ioc" | "Gtc"`). -/
inductive Tif where
  | Alo
  | Ioc
  | Gtc
deriving DecidableEq

/-- Take-profit / stop-loss marker (`"tp" | "sl"`). -/
inductive Tpsl where
  | tp
  | sl
deriving DecidableEq

/-- `LimitOrderType`. -/
structure LimitOrderType where
  tif : Tif
deriving DecidableEq

/-- `TriggerOrderTypeWire` (trigger price already encoded as a string). -/
structure TriggerOrderTypeWire where
  triggerPx : String
  isMarket : Bool
  tpsl : Tpsl
deriving DecidableEq

/-- `OrderTypeWire`: limit and trigger keys of the wire-side order type. -/
structure OrderTypeWire where
  limit : JsOpt LimitOrderType
  trigger : JsOpt TriggerOrderTypeWire
deriving DecidableEq

/-- `TriggerOrderType` (trigger price still numeric). -/
structure TriggerOrderType where
  triggerPx : ℚ
  isMarket : Bool
  tpsl : Tpsl
deriving DecidableEq

/-- `OrderType`: limit and trigger keys of the user-facing order type. -/
structure OrderType where
  limit : JsOpt LimitOrderType
  trigger : JsOpt TriggerOrderType
deriving DecidableEq

/-- A constructed `Cloid` value (the `_rawCloid` field). -/
structure Cloid where
  rawCloid : String
deriving DecidableEq

/-- Does the string start with the characters `0x`?  (Model of
`startsWith("0x")`, written over the character list.) -/
def startsWith0x (s : String) : Bool :=
  match s.toList with
  | '0' :: 'x' :: _ => true
  | _ => false

/-- The `Cloid` constructor together with `_validate` (source lines 49–61):
requires the `0x` prefix and exactly 32 characters after it.  Only the
prefix and the length are checked. -/
def cloidValidate (raw : String) : Except Err Cloid :=
  if startsWith0x raw = false then .error .InvalidCloidFormat
  else if (raw.toList.drop 2).length ≠ 32 then .error .InvalidCloidFormat
  else .ok ⟨raw⟩

/-- Lowercase hexadecimal digits of `n` (model of `n.toString(16)` for a
nonnegative integer). -/
def hexChars (n : ℕ) : List Char := Nat.toDigits 16 n

/-- `padStart(32, "0")` on a character list. -/
def padStart32 (cs : List Char) : List Char := List.replicate (32 - cs.length) '0' ++ cs

/-- `Cloid.fromInt` (source line 63): hex-format the integer, left-pad to 32
digits, prefix `0x`, and validate. -/
def Cloid.fromInt (n : ℕ) : Except Err Cloid :=
  cloidValidate (String.mk ('0' :: 'x' :: padStart32 (hexChars n)))

/-- `Cloid.fromStr` (source line 67): validate the raw string. -/
def Cloid.fromStr (s : String) : Except Err Cloid := cloidValidate s

/-- `toRaw` (source line 71). -/
def Cloid.toRaw (c : Cloid) : String := c.rawCloid

/-- `OrderRequest` (source lines 76–84); the optional `cloid` field is
`none` when absent, `undefined` or `null` (all behave identically in the
truthiness test of line 143). -/
structure OrderRequest where
  coin : String
  is_buy : Bool
  sz : ℚ
  limit_px : ℚ
  order_type : OrderType
  reduce_only : Bool
  cloid : Option Cloid
deriving DecidableEq

/-- `OrderWire` (source lines 25–33); `c = none` models the key being
entirely absent from the record. -/
structure OrderWire where
  a : ℤ
  b : Bool
  p : String
  s : String
  r : Bool
  t : OrderTypeWire
  c : Option String
deriving DecidableEq

/-- `orderTypeToWire` (source lines 97–110): the limit branch fires on the
mere presence of the `limit` key (the `in` operator); the trigger branch
requires the `trigger` key to be present with a truthy value; otherwise the
function throws `Invalid order type`. -/
def orderTypeToWire (orderType : OrderType) : Except Err OrderTypeWire :=
  if keyPresent orderType.limit then
    .ok { limit := jsRead orderType.limit, trigger := .absent }
  else
    match orderType.trigger with
    | .val trg =>
      (floatToWire trg.triggerPx).map fun px =>
        { limit := .absent
          trigger := .val { triggerPx := px, isMarket := trg.isMarket, tpsl := trg.tpsl } }
    | _ => .error .InvalidOrderType

/-- `orderRequestToOrderWire` (source lines 130–148): build the wire record
field by field (price and size through `floatToWire`, the order type
through `orderTypeToWire`), then attach `c` only when a cloid is supplied. -/
def orderRequestToOrderWire (order : OrderRequest) (asset : ℤ) : Except Err OrderWire :=
  match floatToWire order.limit_px with
  | .error e => .error e
  | .ok p =>
    match floatToWire order.sz with
    | .error e => .error e
    | .ok s =>
      match orderTypeToWire order.order_type with
      | .error e => .error e
      | .ok t =>
        let w : OrderWire :=
          { a := asset, b := order.is_buy, p := p, s := s, r := order.reduce_only,
            t := t, c := none }
        match order.cloid with
        | some cl => .ok { w with c := some cl.toRaw }
        | none => .ok w

/-- `OrderAction` (the record literal of source lines 151–155). -/
structure OrderAction where
  type : String
  orders : List OrderWire
  grouping : String
deriving DecidableEq

/-- `orderWiresToOrderAction` (source lines 150–156): wraps the wire records
with the fixed discriminator `"order"` and the fixed grouping `"na"`. -/
def orderWiresToOrderAction (orderWires : List OrderWire) : OrderAction :=
  { type := "order", orders := orderWires, grouping := "na" }

/-- The example order request of source lines 112–121. -/
def exampleOrderRequest : OrderRequest :=
  { coin := "BTC", is_buy := true, sz := 1 / 1000, limit_px := 90000,
    order_type := { limit := .val { tif := .Gtc }, trigger := .absent },
    reduce_only := false, cloid := none }

example : Cloid.fromInt 1 = .ok ⟨"0x00000000000000000000000000000001"⟩ := by decide
example : Cloid.fromStr "0x0000000000000000000000000000001" = .error .InvalidCloidFormat := by
  decide
example : Cloid.fromStr "0xgggggggggggggggggggggggggggggggg" =
    .ok ⟨"0xgggggggggggggggggggggggggggggggg"⟩ := by decide
example : orderTypeToWire { limit := .undef, trigger := .absent } =
    .ok { limit := .undef, trigger := .absent } := by decide
example : orderTypeToWire { limit := .absent, trigger := .absent } =
    .error .InvalidOrderType := by decide
example : orderTypeToWire { limit := .absent, trigger := .undef } =
    .error .InvalidOrderType := by decide

/-! ## Digit and character lemmas -/

theorem digitsFuel_zero (fuel : ℕ) : digitsFuel fuel 0 = [] := by
  cases fuel <;> rfl

theorem ofDigits10_digitsFuel (fuel n : ℕ) (h : n < 10 ^ fuel) :
    ofDigits10 (digitsFuel fuel n) = n := by
  induction fuel generalizing n with
  | zero =>
    have : n = 0 := by simpa using h
    subst this
    rfl
  | succ fuel ih =>
    cases n with
    | zero => rfl
    | succ m =>
      show (m + 1) % 10 + 10 * ofDigits10 (digitsFuel fuel ((m + 1) / 10)) = m + 1
      rw [ih ((m + 1) / 10) (by rw [Nat.div_lt_iff_lt_mul (by norm_num)]; rw [pow_succ] at h; omega)]
      omega

theorem digitsFuel_all_lt (fuel n : ℕ) : ∀ d ∈ digitsFuel fuel n, d < 10 := by
  induction fuel generalizing n with
  | zero => simp [digitsFuel]
  | succ fuel ih =>
    cases n with
    | zero => simp [digitsFuel]
    | succ m =>
      intro d hd
      rcases List.mem_cons.mp hd with h | h
      · subst h; exact Nat.mod_lt _ (by norm_num)
      · exact ih _ d h

theorem digitsFuel_length_le (fuel n k : ℕ) (h : n < 10 ^ k) :
    (digitsFuel fuel n).length ≤ k := by
  induction fuel generalizing n k with
  | zero => simp [digitsFuel]
  | succ fuel ih =>
    cases n with
    | zero => simp [digitsFuel]
    | succ m =>
      cases k with
      | zero => simp at h
      | succ k =>
        have hlt : (m + 1) / 10 < 10 ^ k := by
          rw [Nat.div_lt_iff_lt_mul (by norm_num)]
          rw [pow_succ] at h
          omega
        show ((m + 1) % 10 :: digitsFuel fuel ((m + 1) / 10)).length ≤ k + 1
        simpa using ih ((m + 1) / 10) k hlt

theorem digitsFuel_length_le_fuel (fuel n : ℕ) : (digitsFuel fuel n).length ≤ fuel := by
  induction fuel generalizing n with
  | zero => simp [digitsFuel]
  | succ fuel ih =>
    cases n with
    | zero => simp [digitsFuel]
    | succ m =>
      show ((m + 1) % 10 :: digitsFuel fuel ((m + 1) / 10)).length ≤ fuel + 1
      simpa using ih ((m + 1) / 10)

theorem ofDigits10_all_zero (l : List ℕ) (h : ∀ d ∈ l, d = 0) : ofDigits10 l = 0 := by
  induction l with
  | nil => rfl
  | cons d l ih =>
    show d + 10 * ofDigits10 l = 0
    rw [h d (List.mem_cons_self d l), ih fun x hx => h x (List.mem_cons_of_mem d hx)]

theorem ofDigits10_append (l r : List ℕ) :
    ofDigits10 (l ++ r) = ofDigits10 l + 10 ^ l.length * ofDigits10 r := by
  induction l with
  | nil => simp [ofDigits10]
  | cons d l ih =>
    show d + 10 * ofDigits10 (l ++ r) = d + 10 * ofDigits10 l + 10 ^ (l.length + 1) * ofDigits10 r
    rw [ih, pow_succ]
    ring

theorem charDigit_digitChar (d : ℕ) (h : d < 10) : charDigit (digitChar d) = d := by
  interval_cases d <;> decide

theorem isDigitCh_digitChar (d : ℕ) (h : d < 10) : isDigitCh (digitChar d) = true := by
  interval_cases d <;> decide

theorem digitChar_ne_dash (d : ℕ) (h : d < 10) : digitChar d ≠ '-' := by
  interval_cases d <;> decide

theorem map_charDigit_chs (ds : List ℕ) (h : ∀ d ∈ ds, d < 10) :
    (chs ds).map charDigit = ds := by
  induction ds with
  | nil => rfl
  | cons d ds ih =>
    show charDigit (digitChar d) :: (chs ds).map charDigit = d :: ds
    rw [charDigit_digitChar d (h d (List.mem_cons_self d ds)),
      ih fun x hx => h x (List.mem_cons_of_mem d hx)]

theorem readNat_chs (ds : List ℕ) (h : ∀ d ∈ ds, d < 10) :
    readNat (chs ds) = ofDigits10 ds.reverse := by
  unfold readNat
  rw [map_charDigit_chs ds h]

theorem readNat_append (l r : List Char) :
    readNat (l ++ r) = readNat r + 10 ^ r.length * readNat l := by
  unfold readNat
  rw [List.map_append, List.reverse_append, ofDigits10_append]
  simp

theorem readNat_zeros (k : ℕ) : readNat (zeros k) = 0 := by
  unfold readNat zeros
  apply ofDigits10_all_zero
  intro d hd
  rw [List.mem_reverse] at hd
  obtain ⟨c, hc, rfl⟩ := List.mem_map.mp hd
  rw [List.eq_of_mem_replicate hc]
  rfl

theorem mem_chs_digit (ds : List ℕ) (h : ∀ d ∈ ds, d < 10) :
    ∀ c ∈ chs ds, isDigitCh c = true := by
  intro c hc
  obtain ⟨d, hd, rfl⟩ := List.mem_map.mp hc
  exact isDigitCh_digitChar d (h d hd)

theorem mem_zeros_digit (k : ℕ) : ∀ c ∈ zeros k, isDigitCh c = true := by
  intro c hc
  rw [List.eq_of_mem_replicate hc]
  decide

/-! ## takeWhile / dropWhile helpers -/

theorem takeWhile_all {α : Type} (p : α → Bool) (l : List α) (h : ∀ a ∈ l, p a = true) :
    l.takeWhile p = l := by
  induction l with
  | nil => rfl
  | cons a l ih =>
    simp [List.takeWhile, h a (List.mem_cons_self a l),
      ih fun x hx => h x (List.mem_cons_of_mem a hx)]

theorem dropWhile_all {α : Type} (p : α → Bool) (l : List α) (h : ∀ a ∈ l, p a = true) :
    l.dropWhile p = [] := by
  induction l with
  | nil => rfl
  | cons a l ih =>
    simp [List.dropWhile, h a (List.mem_cons_self a l),
      ih fun x hx => h x (List.mem_cons_of_mem a hx)]

theorem takeWhile_append_all {α : Type} (p : α → Bool) (l r : List α)
    (h : ∀ a ∈ l, p a = true) : (l ++ r).takeWhile p = l ++ r.takeWhile p := by
  induction l with
  | nil => rfl
  | cons a l ih =>
    rw [List.cons_append]
    simp [List.takeWhile, h a (List.mem_cons_self a l),
      ih fun x hx => h x (List.mem_cons_of_mem a hx)]

theorem dropWhile_append_all {α : Type} (p : α → Bool) (l r : List α)
    (h : ∀ a ∈ l, p a = true) : (l ++ r).dropWhile p = r.dropWhile p := by
  induction l with
  | nil => rfl
  | cons a l ih =>
    rw [List.cons_append]
    simp [List.dropWhile, h a (List.mem_cons_self a l),
      ih fun x hx => h x (List.mem_cons_of_mem a hx)]

theorem takeWhile_cons_neg {α : Type} (p : α → Bool) (c : α) (r : List α) (h : p c = false) :
    (c :: r).takeWhile p = [] := by
  simp [List.takeWhile, h]

theorem dropWhile_cons_neg {α : Type} (p : α → Bool) (c : α) (r : List α) (h : p c = false) :
    (c :: r).dropWhile p = c :: r := by
  simp [List.dropWhile, h]

theorem dropWhile_head_false {α : Type} (p : α → Bool) (l : List α) (x : α) (xs : List α)
    (h : l.dropWhile p = x :: xs) : p x = false := by
  induction l with
  | nil => simp [List.dropWhile] at h
  | cons a l ih =>
    cases hpa : p a with
    | true =>
      rw [List.dropWhile, hpa] at h
      exact ih h
    | false =>
      rw [List.dropWhile, hpa] at h
      cases h
      exact hpa

theorem mem_dropWhile_imp_mem {α : Type} (p : α → Bool) (l : List α) (x : α)
    (h : x ∈ l.dropWhile p) : x ∈ l := by
  induction l with
  | nil => simp [List.dropWhile] at h
  | cons a l ih =>
    cases hpa : p a with
    | true =>
      rw [List.dropWhile, hpa] at h
      exact List.mem_cons_of_mem a (ih h)
    | false =>
      rw [List.dropWhile, hpa] at h
      exact h

theorem mem_takeWhile_pred {α : Type} (p : α → Bool) (l : List α) (x : α)
    (h : x ∈ l.takeWhile p) : p x = true := by
  induction l with
  | nil => simp [List.takeWhile] at h
  | cons a l ih =>
    cases hpa : p a with
    | true =>
      rw [List.takeWhile, hpa] at h
      rcases List.mem_cons.mp h with h1 | h1
      · subst h1; exact hpa
      · exact ih h1
    | false =>
      rw [List.takeWhile, hpa] at h
      simp at h

theorem getLast?_append_right {α : Type} (l r : List α) (h : r ≠ []) :
    (l ++ r).getLast? = r.getLast? := by
  induction l with
  | nil => rfl
  | cons a l ih =>
    cases hl : l ++ r with
    | nil => exact absurd (List.append_eq_nil.mp hl).2 h
    | cons b t =>
      rw [List.cons_append, hl, List.getLast?_cons_cons, ← hl, ih]

/-! ## Parser lemmas on canonical shapes -/

theorem parseMant_digits_rest (A rest : List Char) (hA : A ≠ [])
    (hdA : ∀ c ∈ A, isDigitCh c = true)
    (hrest : rest = [] ∨ ∃ d rs, rest = d :: rs ∧ isDigitCh d = false ∧ d ≠ '.') :
    parseMant (A ++ rest) = some ((readNat A : ℚ), rest) := by
  rcases hrest with rfl | ⟨d, rs, rfl, hd, hne⟩
  · rw [List.append_nil]
    have h1 : A.takeWhile isDigitCh = A := takeWhile_all _ _ hdA
    have h2 : A.dropWhile isDigitCh = [] := dropWhile_all _ _ hdA
    simp only [parseMant, h1, h2]
    rw [if_neg hA]
  · have h1 : (A ++ d :: rs).takeWhile isDigitCh = A := by
      rw [takeWhile_append_all _ _ _ hdA, takeWhile_cons_neg _ _ _ hd, List.append_nil]
    have h2 : (A ++ d :: rs).dropWhile isDigitCh = d :: rs := by
      rw [dropWhile_append_all _ _ _ hdA, dropWhile_cons_neg _ _ _ hd]
    simp only [parseMant, h1, h2]
    rw [if_neg hA, if_neg hne]

theorem parseMant_point (A B rest : List Char) (hA : A ≠ []) (hB : B ≠ [])
    (hdA : ∀ c ∈ A, isDigitCh c = true) (hdB : ∀ c ∈ B, isDigitCh c = true)
    (hrest : rest = [] ∨ ∃ d rs, rest = d :: rs ∧ isDigitCh d = false) :
    parseMant (A ++ '.' :: (B ++ rest))
      = some ((readNat A : ℚ) + (readNat B : ℚ) / 10 ^ B.length, rest) := by
  have hBtw : (B ++ rest).takeWhile isDigitCh = B := by
    rcases hrest with rfl | ⟨d, rs, rfl, hd⟩
    · rw [List.append_nil, takeWhile_all _ _ hdB]
    · rw [takeWhile_append_all _ _ _ hdB, takeWhile_cons_neg _ _ _ hd, List.append_nil]
  have hBdw : (B ++ rest).dropWhile isDigitCh = rest := by
    rcases hrest with rfl | ⟨d, rs, rfl, hd⟩
    · rw [List.append_nil, dropWhile_all _ _ hdB]
    · rw [dropWhile_append_all _ _ _ hdB, dropWhile_cons_neg _ _ _ hd]
  have h1 : (A ++ '.' :: (B ++ rest)).takeWhile isDigitCh = A := by
    rw [takeWhile_append_all _ _ _ hdA, takeWhile_cons_neg _ _ _ (by decide), List.append_nil]
  have h2 : (A ++ '.' :: (B ++ rest)).dropWhile isDigitCh = '.' :: (B ++ rest) := by
    rw [dropWhile_append_all _ _ _ hdA, dropWhile_cons_neg _ _ _ (by decide)]
  simp only [parseMant, h1, h2, hBtw, hBdw]
  rw [if_neg hA, if_pos trivial, if_neg hB]

theorem parsePos_of_mant_nil (cs : List Char) (m : ℚ) (h : parseMant cs = some (m, [])) :
    parsePos cs = some m := by
  unfold parsePos
  rw [h]

theorem parsePos_of_mant_exp (cs etail : List Char) (m : ℚ) (ex : ℤ)
    (h : parseMant cs = some (m, 'e' :: etail)) (he : parseExp etail = some ex) :
    parsePos cs = some (m * (10 : ℚ) ^ ex) := by
  unfold parsePos
  rw [h]
  show (if ('e' : Char) = 'e' then (parseExp etail).map (fun ex => m * (10 : ℚ) ^ ex) else none)
      = some (m * (10 : ℚ) ^ ex)
  rw [if_pos rfl, he]
  rfl

theorem parseExp_digits_neg (E : List Char) (hne : E ≠ []) (hd : ∀ c ∈ E, isDigitCh c = true) :
    parseExp ('-' :: E) = some (-(readNat E : ℤ)) := by
  have hall : E.all isDigitCh = true := List.all_eq_true.mpr hd
  show (if ('-' : Char) = '+' then parseExpTail 1 E
        else if ('-' : Char) = '-' then parseExpTail (-1) E else parseExpTail 1 ('-' :: E))
      = some (-(readNat E : ℤ))
  rw [if_neg (by decide), if_pos rfl]
  unfold parseExpTail
  rw [if_neg hne, if_pos hall, neg_one_mul]

theorem parseExp_digits_pos (E : List Char) (hne : E ≠ []) (hd : ∀ c ∈ E, isDigitCh c = true) :
    parseExp ('+' :: E) = some ((readNat E : ℤ)) := by
  have hall : E.all isDigitCh = true := List.all_eq_true.mpr hd
  show (if ('+' : Char) = '+' then parseExpTail 1 E
        else if ('+' : Char) = '-' then parseExpTail (-1) E else parseExpTail 1 ('+' :: E))
      = some ((readNat E : ℤ))
  rw [if_pos rfl]
  unfold parseExpTail
  rw [if_neg hne, if_pos hall, one_mul]

theorem parseDec_mk_cons (c : Char) (cs : List Char) (h : ¬ c = '-') :
    parseDec (String.mk (c :: cs)) = parsePos (c :: cs) := by
  show (if c = '-' then (parsePos cs).map (fun q => -q) else parsePos (c :: cs)) = _
  rw [if_neg h]

theorem parseDec_mk_dash (cs : List Char) :
    parseDec (String.mk ('-' :: cs)) = (parsePos cs).map (fun q => -q) := by
  show (if ('-' : Char) = '-' then (parsePos cs).map (fun q => -q) else parsePos ('-' :: cs)) = _
  rw [if_pos rfl]

/-! ## Value of the printed notations -/

theorem parseMant_digits (A : List Char) (hA : A ≠ [])
    (hdA : ∀ c ∈ A, isDigitCh c = true) : parseMant A = some ((readNat A : ℚ), []) := by
  have h := parseMant_digits_rest A [] hA hdA (Or.inl rfl)
  rwa [List.append_nil] at h

theorem parseMant_point_nil (A B : List Char) (hA : A ≠ []) (hB : B ≠ [])
    (hdA : ∀ c ∈ A, isDigitCh c = true) (hdB : ∀ c ∈ B, isDigitCh c = true) :
    parseMant (A ++ '.' :: B)
      = some ((readNat A : ℚ) + (readNat B : ℚ) / 10 ^ B.length, []) := by
  have h := parseMant_point A B [] hA hB hdA hdB (Or.inl rfl)
  rwa [List.append_nil] at h

theorem parsePos_decSci (sig : List ℕ) (e : ℤ) (hne : sig ≠ []) (h10 : ∀ d ∈ sig, d < 10)
    (he0 : e ≠ 0) (heb : e.natAbs < 10 ^ 400) :
    parsePos (decSciChars sig e)
      = some ((readNat (chs sig) : ℚ) * (10 : ℚ) ^ (e + 1 - (sig.length : ℤ))) := by
  have hE10 : ∀ d ∈ (natDigits e.natAbs).reverse, d < 10 := fun d hd =>
    digitsFuel_all_lt 400 e.natAbs d (List.mem_reverse.mp hd)
  have hEne : chs ((natDigits e.natAbs).reverse) ≠ [] := by
    intro hc
    have h1 : (natDigits e.natAbs).reverse = [] := by simpa [chs] using hc
    have h2 : natDigits e.natAbs = [] := by simpa using h1
    have h3 := ofDigits10_digitsFuel 400 e.natAbs heb
    rw [show natDigits e.natAbs = digitsFuel 400 e.natAbs from rfl] at h2
    rw [h2] at h3
    simp only [ofDigits10] at h3
    exact he0 (by omega)
  have hEdig : ∀ c ∈ chs ((natDigits e.natAbs).reverse), isDigitCh c = true :=
    mem_chs_digit _ hE10
  have hEval : readNat (chs ((natDigits e.natAbs).reverse)) = e.natAbs := by
    rw [readNat_chs _ hE10, List.reverse_reverse]
    exact ofDigits10_digitsFuel 400 e.natAbs heb
  have hexp : parseExp (if e < 0 then '-' :: chs ((natDigits e.natAbs).reverse)
      else '+' :: chs ((natDigits e.natAbs).reverse)) = some e := by
    by_cases hneg : e < 0
    · rw [if_pos hneg, parseExp_digits_neg _ hEne hEdig, hEval,
        show -((e.natAbs : ℤ)) = e by omega]
    · rw [if_neg hneg, parseExp_digits_pos _ hEne hEdig, hEval,
        show ((e.natAbs : ℤ)) = e by omega]
  obtain ⟨s0, rest, rfl⟩ := List.exists_cons_of_ne_nil hne
  have hs0 : s0 < 10 := h10 s0 (List.mem_cons_self _ _)
  have hA1dig : ∀ c ∈ [digitChar s0], isDigitCh c = true := by
    intro c hc
    rw [List.mem_singleton.mp hc]
    exact isDigitCh_digitChar s0 hs0
  cases rest with
  | nil =>
    have hshape : decSciChars [s0] e
        = [digitChar s0] ++ 'e' :: (if e < 0 then '-' :: chs ((natDigits e.natAbs).reverse)
            else '+' :: chs ((natDigits e.natAbs).reverse)) := by
      simp [decSciChars, chs]
    rw [hshape, parsePos_of_mant_exp _ _ _ e
      (parseMant_digits_rest [digitChar s0] _ (by simp) hA1dig
        (Or.inr ⟨'e', _, rfl, by decide, by decide⟩)) hexp]
    have : e + 1 - (([s0] : List ℕ).length : ℤ) = e := by simp
    rw [this]
    rfl
  | cons r1 rs =>
    have hrest10 : ∀ d ∈ r1 :: rs, d < 10 := fun d hd => h10 d (List.mem_cons_of_mem _ hd)
    have hlen2 : ¬ (s0 :: r1 :: rs).length ≤ 1 := by
      intro h
      rw [List.length_cons, List.length_cons] at h
      omega
    have hshape : decSciChars (s0 :: r1 :: rs) e
        = [digitChar s0] ++ '.' :: (chs (r1 :: rs)
            ++ 'e' :: (if e < 0 then '-' :: chs ((natDigits e.natAbs).reverse)
               else '+' :: chs ((natDigits e.natAbs).reverse))) := by
      unfold decSciChars
      rw [if_neg hlen2]
      simp [chs, List.append_assoc]
    rw [hshape, parsePos_of_mant_exp _ _ _ e
      (parseMant_point [digitChar s0] (chs (r1 :: rs)) _ (by simp) (by simp [chs]) hA1dig
        (mem_chs_digit _ hrest10) (Or.inr ⟨'e', _, rfl, by decide⟩)) hexp]
    congr 1
    have hsplit : readNat (chs (s0 :: r1 :: rs))
        = readNat (chs (r1 :: rs)) + 10 ^ (r1 :: rs).length * readNat [digitChar s0] := by
      rw [show chs (s0 :: r1 :: rs) = [digitChar s0] ++ chs (r1 :: rs) from rfl, readNat_append]
      simp [chs]
    have hlen : (chs (r1 :: rs)).length = (r1 :: rs).length := by simp [chs]
    have hzp : (10 : ℚ) ^ (e + 1 - ((s0 :: r1 :: rs).length : ℤ))
        = (10 : ℚ) ^ e / 10 ^ ((r1 :: rs).length) := by
      rw [show e + 1 - ((s0 :: r1 :: rs).length : ℤ) = e - ((r1 :: rs).length : ℤ) by
        rw [List.length_cons]; push_cast; ring]
      rw [zpow_sub₀ (by norm_num), zpow_natCast]
    rw [hsplit, hlen, hzp]
    push_cast
    field_simp
    try ring
    try exact Or.inl trivial

theorem parsePos_decFixed (sig : List ℕ) (e : ℤ) (hne : sig ≠ []) (h10 : ∀ d ∈ sig, d < 10) :
    parsePos (decFixedChars sig e)
      = some ((readNat (chs sig) : ℚ) * (10 : ℚ) ^ (e + 1 - (sig.length : ℤ))) := by
  have hchne : chs sig ≠ [] := by
    intro hc
    exact hne (by simpa [chs] using hc)
  unfold decFixedChars
  split
  case isTrue he =>
    split
    case isTrue hfits =>
      have hAne : chs sig ++ zeros (e.toNat + 1 - sig.length) ≠ [] := by
        intro h
        exact hchne (List.append_eq_nil.mp h).1
      have hAdig : ∀ c ∈ chs sig ++ zeros (e.toNat + 1 - sig.length), isDigitCh c = true := by
        intro c hc
        rcases List.mem_append.mp hc with h | h
        · exact mem_chs_digit _ h10 c h
        · exact mem_zeros_digit _ c h
      rw [parsePos_of_mant_nil _ _ (parseMant_digits _ hAne hAdig)]
      congr 1
      rw [readNat_append, readNat_zeros]
      have hpadlen : (zeros (e.toNat + 1 - sig.length)).length = e.toNat + 1 - sig.length := by
        simp [zeros]
      rw [hpadlen]
      have hz : (10 : ℚ) ^ (e + 1 - (sig.length : ℤ)) = 10 ^ (e.toNat + 1 - sig.length) := by
        rw [show e + 1 - (sig.length : ℤ) = ((e.toNat + 1 - sig.length : ℕ) : ℤ) by omega,
          zpow_natCast]
      rw [hz]
      push_cast
      ring
    case isFalse hbig =>
      obtain ⟨s0, tl, rfl⟩ := List.exists_cons_of_ne_nil hne
      have hA10 : ∀ d ∈ (s0 :: tl).take (e.toNat + 1), d < 10 := fun d hd =>
        h10 d (List.take_subset _ _ hd)
      have hB10 : ∀ d ∈ (s0 :: tl).drop (e.toNat + 1), d < 10 := fun d hd =>
        h10 d (List.drop_subset _ _ hd)
      have hAne : chs ((s0 :: tl).take (e.toNat + 1)) ≠ [] := by
        rw [List.take_succ_cons]
        simp [chs]
      have hBdropne : (s0 :: tl).drop (e.toNat + 1) ≠ [] := by
        intro h
        rw [List.drop_eq_nil_iff] at h
        omega
      have hBne : chs ((s0 :: tl).drop (e.toNat + 1)) ≠ [] := by
        intro h
        exact hBdropne (by simpa [chs] using h)
      rw [parsePos_of_mant_nil _ _
        (parseMant_point_nil (chs ((s0 :: tl).take (e.toNat + 1)))
          (chs ((s0 :: tl).drop (e.toNat + 1))) hAne hBne
          (mem_chs_digit _ hA10) (mem_chs_digit _ hB10))]
      congr 1
      have hsplit : readNat (chs (s0 :: tl))
          = readNat (chs ((s0 :: tl).drop (e.toNat + 1)))
            + 10 ^ ((s0 :: tl).drop (e.toNat + 1)).length
              * readNat (chs ((s0 :: tl).take (e.toNat + 1))) := by
        conv_lhs => rw [← List.take_append_drop (e.toNat + 1) (s0 :: tl)]
        rw [show chs ((s0 :: tl).take (e.toNat + 1) ++ (s0 :: tl).drop (e.toNat + 1))
            = chs ((s0 :: tl).take (e.toNat + 1)) ++ chs ((s0 :: tl).drop (e.toNat + 1)) from by
          simp [chs]]
        rw [readNat_append]
        simp [chs]
      have hlenB : (chs ((s0 :: tl).drop (e.toNat + 1))).length
          = (s0 :: tl).length - (e.toNat + 1) := by
        simp [chs]
      have hdroplen : ((s0 :: tl).drop (e.toNat + 1)).length
          = (s0 :: tl).length - (e.toNat + 1) := by
        simp
      have hz : (10 : ℚ) ^ (e + 1 - ((s0 :: tl).length : ℤ))
          = 1 / 10 ^ ((s0 :: tl).length - (e.toNat + 1)) := by
        rw [show e + 1 - ((s0 :: tl).length : ℤ)
            = -((((s0 :: tl).length - (e.toNat + 1) : ℕ) : ℤ)) by
          push_cast [Nat.cast_sub (by omega : e.toNat + 1 ≤ (s0 :: tl).length)]
          omega]
        rw [zpow_neg, zpow_natCast]
        norm_num
      rw [hsplit, hlenB, hdroplen, hz]
      push_cast
      field_simp
      ring
  case isFalse he =>
    have hBne : zeros (e.natAbs - 1) ++ chs sig ≠ [] := by
      intro h
      exact hchne (List.append_eq_nil.mp h).2
    have hBdig : ∀ c ∈ zeros (e.natAbs - 1) ++ chs sig, isDigitCh c = true := by
      intro c hc
      rcases List.mem_append.mp hc with h | h
      · exact mem_zeros_digit _ c h
      · exact mem_chs_digit _ h10 c h
    rw [show ('0' :: '.' :: (zeros (e.natAbs - 1) ++ chs sig))
        = ['0'] ++ '.' :: (zeros (e.natAbs - 1) ++ chs sig) from rfl]
    rw [parsePos_of_mant_nil _ _
      (parseMant_point_nil ['0'] _ (by simp) hBne
        (List.forall_mem_singleton.mpr (by decide)) hBdig)]
    congr 1
    have h0 : readNat ['0'] = 0 := by decide
    have hBval : readNat (zeros (e.natAbs - 1) ++ chs sig) = readNat (chs sig) := by
      rw [readNat_append, readNat_zeros]
      ring
    have hBlen : (zeros (e.natAbs - 1) ++ chs sig).length = (e.natAbs - 1) + sig.length := by
      simp [zeros, chs]
    have hz : (10 : ℚ) ^ (e + 1 - (sig.length : ℤ))
        = 1 / 10 ^ ((e.natAbs - 1) + sig.length) := by
      rw [show e + 1 - (sig.length : ℤ) = -(((e.natAbs - 1 + sig.length : ℕ) : ℤ)) by
        push_cast
        omega]
      rw [zpow_neg, zpow_natCast]
      norm_num
    rw [h0, hBval, hBlen, hz]
    push_cast
    field_simp

/-! ## The printed string parses back to the printed value -/

theorem parsePos_decBody (n : ℕ) (hn : n ≠ 0) (hb : n < 10 ^ 400) :
    parsePos (decBodyChars n) = some ((n : ℚ) / 10 ^ 8) := by
  have hds : ofDigits10 (natDigits n) = n := ofDigits10_digitsFuel 400 n hb
  have hall : ∀ d ∈ natDigits n, d < 10 := digitsFuel_all_lt 400 n
  have hTS := List.takeWhile_append_dropWhile (p := (· == 0)) (l := natDigits n)
  have hT0 : ∀ d ∈ (natDigits n).takeWhile (· == 0), d = 0 := by
    intro d hd
    have := mem_takeWhile_pred _ _ _ hd
    simpa using this
  have hSsub : ∀ d ∈ (natDigits n).dropWhile (· == 0), d < 10 := fun d hd =>
    hall d (mem_dropWhile_imp_mem _ _ _ hd)
  have hval : n = 10 ^ ((natDigits n).takeWhile (· == 0)).length
      * ofDigits10 ((natDigits n).dropWhile (· == 0)) := by
    conv_lhs => rw [← hds, ← hTS]
    rw [ofDigits10_append, ofDigits10_all_zero _ hT0]
    omega
  have hSne : (natDigits n).dropWhile (· == 0) ≠ [] := by
    intro h
    rw [h] at hval
    simp only [ofDigits10] at hval
    omega
  have hsig10 : ∀ d ∈ sigOf n, d < 10 := by
    intro d hd
    exact hSsub d (List.mem_reverse.mp hd)
  have hsigne : sigOf n ≠ [] := by
    unfold sigOf
    intro h
    exact hSne (by simpa using h)
  have hsiglen : (sigOf n).length = ((natDigits n).dropWhile (· == 0)).length := by
    simp [sigOf]
  have hlen : (natDigits n).length
      = ((natDigits n).takeWhile (· == 0)).length
        + ((natDigits n).dropWhile (· == 0)).length := by
    conv_lhs => rw [← hTS]
    rw [List.length_append]
  have hreadsig : readNat (chs (sigOf n)) = ofDigits10 ((natDigits n).dropWhile (· == 0)) := by
    rw [readNat_chs _ hsig10]
    simp [sigOf]
  have hL400 : (natDigits n).length ≤ 400 := digitsFuel_length_le_fuel 400 n
  have hvalue : ∀ cs : List Char, parsePos cs
        = some ((readNat (chs (sigOf n)) : ℚ)
            * (10 : ℚ) ^ ((((natDigits n).length : ℤ) - 9) + 1 - ((sigOf n).length : ℤ))) →
      parsePos cs = some ((n : ℚ) / 10 ^ 8) := by
    intro cs hpf
    rw [hpf]
    congr 1
    rw [hreadsig]
    have hexp : (((natDigits n).length : ℤ) - 9) + 1 - ((sigOf n).length : ℤ)
        = (((natDigits n).takeWhile (· == 0)).length : ℤ) - 8 := by
      omega
    rw [hexp, zpow_sub₀ (by norm_num : (10 : ℚ) ≠ 0), zpow_natCast]
    conv_rhs => rw [hval]
    push_cast
    have h8 : ((10 : ℚ) ^ (8 : ℤ)) = 10 ^ (8 : ℕ) := by norm_num
    rw [h8]
    field_simp
    ring
  unfold decBodyChars
  split
  case isTrue hcond =>
    exact hvalue _ (parsePos_decSci (sigOf n) _ hsigne hsig10 (by omega)
      (by have h400 : (((natDigits n).length : ℤ) - 9).natAbs ≤ 400 := by omega
          calc (((natDigits n).length : ℤ) - 9).natAbs ≤ 400 := h400
          _ < 10 ^ 400 := by norm_num))
  case isFalse hcond =>
    exact hvalue _ (parsePos_decFixed (sigOf n) _ hsigne hsig10)

theorem parseDec_decToString (neg : Bool) (n : ℕ) (hb : n < 10 ^ 400) :
    parseDec (decToString neg n)
      = some ((if neg then -1 else 1) * (n : ℚ) / 10 ^ 8) := by
  by_cases hn : n = 0
  · subst hn
    have h0 : decToString neg 0 = String.mk ['0'] := by cases neg <;> rfl
    rw [h0, parseDec_mk_cons '0' [] (by decide),
      parsePos_of_mant_nil _ _ (parseMant_digits ['0'] (by simp)
        (List.forall_mem_singleton.mpr (by decide)))]
    have hr0 : readNat ['0'] = 0 := by decide
    rw [hr0]
    cases neg <;> norm_num
  · have hbody := parsePos_decBody n hn hb
    have hne' : decBodyChars n ≠ [] := by
      intro h
      rw [h] at hbody
      simp [parsePos, parseMant] at hbody
    obtain ⟨c, t, hct⟩ := List.exists_cons_of_ne_nil hne'
    have hcd : ¬ c = '-' := by
      intro hc
      subst hc
      rw [hct] at hbody
      have hnone : parsePos ('-' :: t) = none := by
        have h1 : ('-' :: t).takeWhile isDigitCh = [] :=
          takeWhile_cons_neg _ _ _ (by decide)
        simp [parsePos, parseMant, h1]
      rw [hnone] at hbody
      exact Option.noConfusion hbody
    cases neg
    · have hs : decToString false n = String.mk (decBodyChars n) := by
        simp [decToString, decToChars, hn]
      rw [hs, hct, parseDec_mk_cons c t hcd, ← hct, hbody]
      norm_num
    · have hs : decToString true n = String.mk ('-' :: decBodyChars n) := by
        simp [decToString, decToChars, hn]
      rw [hs, parseDec_mk_dash, hbody]
      show some (-((n : ℚ) / 10 ^ 8)) = some ((-1) * (n : ℚ) / 10 ^ 8)
      rw [neg_one_mul, neg_div]

/-! ## floatToWire level machinery -/

/-- Modelled from the spec: representable with at most eight fractional
decimal digits means an integer multiple of `10⁻⁸`. -/
def representableE8 (x : ℚ) : Prop := ∃ k : ℤ, x = (k : ℚ) / 10 ^ 8

/-- Modelled from the spec: a finite IEEE double has magnitude below
`2^1024`. -/
def finiteDouble (x : ℚ) : Prop := |x| < 2 ^ 1024

theorem floatToWire_ok_inv (x : ℚ) (s : String) (h : floatToWire x = .ok s) :
    |jsRound8 x - x| < 1 / 10 ^ 12 ∧ s = decToString (decide (x < 0)) (fixed8Num x).toNat := by
  unfold floatToWire at h
  by_cases htol : 1 / 10 ^ 12 ≤ |jsRound8 x - x|
  · rw [if_pos htol] at h
    exact absurd h (by simp)
  · rw [if_neg htol, if_neg (toFixedStr8_ne_neg0 x)] at h
    injection h with h2
    exact ⟨not_le.mp htol, h2.symm⟩

theorem floatToWire_error_iff (x : ℚ) :
    floatToWire x = .error Err.PrecisionLoss ↔ 1 / 10 ^ 12 ≤ |jsRound8 x - x| := by
  unfold floatToWire
  by_cases htol : 1 / 10 ^ 12 ≤ |jsRound8 x - x|
  · rw [if_pos htol]
    exact ⟨fun _ => htol, fun _ => rfl⟩
  · rw [if_neg htol, if_neg (toFixedStr8_ne_neg0 x)]
    constructor
    · intro hcontra
      exact absurd hcontra (by simp)
    · intro hc
      exact absurd hc htol

theorem fixed8Num_nonneg (x : ℚ) : 0 ≤ fixed8Num x := by
  unfold fixed8Num
  exact Int.floor_nonneg.mpr (by positivity)

theorem fixed8Num_toNat_cast (x : ℚ) : (((fixed8Num x).toNat : ℕ) : ℤ) = fixed8Num x :=
  Int.toNat_of_nonneg (fixed8Num_nonneg x)

theorem jsRound8_eq_zero_iff (x : ℚ) : jsRound8 x = 0 ↔ fixed8Num x = 0 := by
  unfold jsRound8
  by_cases hx : x < 0
  · rw [if_pos hx]
    rw [div_eq_zero_iff]
    norm_num
  · rw [if_neg hx]
    rw [div_eq_zero_iff]
    norm_num

theorem abs_jsRound8 (x : ℚ) : |jsRound8 x| = (((fixed8Num x).toNat : ℕ) : ℚ) / 10 ^ 8 := by
  have hcast : ((((fixed8Num x).toNat : ℕ)) : ℚ) = ((fixed8Num x : ℤ) : ℚ) := by
    exact_mod_cast fixed8Num_toNat_cast x
  have habs : |((fixed8Num x : ℤ) : ℚ)| = ((fixed8Num x : ℤ) : ℚ) := by
    apply abs_of_nonneg
    exact_mod_cast fixed8Num_nonneg x
  unfold jsRound8
  by_cases hx : x < 0
  · rw [if_pos hx, abs_div, abs_neg, habs, hcast]
    norm_num
  · rw [if_neg hx, abs_div, habs, hcast]
    norm_num

theorem fixed8Num_toNat_lt (x : ℚ) (hfin : finiteDouble x) :
    (fixed8Num x).toNat < 10 ^ 400 := by
  have h1 : (fixed8Num x : ℚ) ≤ |x| * 10 ^ 8 + 1 / 2 := Int.floor_le _
  have h2 : |x| * 10 ^ 8 < 2 ^ 1024 * 10 ^ 8 :=
    mul_lt_mul_of_pos_right hfin (by positivity)
  have h3 : (fixed8Num x : ℚ) < (10 : ℚ) ^ 400 := by
    have hlit : ((2 : ℚ)) ^ 1024 * 10 ^ 8 + 1 / 2 < (10 : ℚ) ^ 400 := by norm_num
    linarith
  have h4 : fixed8Num x < 10 ^ 400 := by exact_mod_cast h3
  have h5 := fixed8Num_nonneg x
  omega

theorem floatToWire_exact (x : ℚ) (s : String) (hfin : finiteDouble x)
    (h : floatToWire x = .ok s) : parseDec s = some (jsRound8 x) := by
  obtain ⟨htol, rfl⟩ := floatToWire_ok_inv x s h
  rw [parseDec_decToString _ _ (fixed8Num_toNat_lt x hfin)]
  congr 1
  have hcast : ((((fixed8Num x).toNat : ℕ)) : ℚ) = ((fixed8Num x : ℤ) : ℚ) := by
    exact_mod_cast fixed8Num_toNat_cast x
  unfold jsRound8
  by_cases hx : x < 0
  · rw [decide_eq_true hx, if_pos hx, hcast]
    norm_num
  · rw [decide_eq_false hx, if_neg hx, hcast]
    norm_num

theorem floatToWire_zero_out (x : ℚ) (s : String) (h : floatToWire x = .ok s)
    (hz : jsRound8 x = 0) : s = "0" := by
  obtain ⟨_, rfl⟩ := floatToWire_ok_inv x s h
  have hf : fixed8Num x = 0 := (jsRound8_eq_zero_iff x).mp hz
  rw [hf]
  rfl

/-! ## Shape of the printed string -/

theorem getLast?_chs (ds : List ℕ) : (chs ds).getLast? = ds.getLast?.map digitChar := by
  induction ds with
  | nil => rfl
  | cons d ds ih =>
    cases ds with
    | nil => rfl
    | cons d2 ds2 =>
      rw [show chs (d :: d2 :: ds2) = digitChar d :: digitChar d2 :: chs ds2 from rfl,
        List.getLast?_cons_cons,
        show (digitChar d2 :: chs ds2) = chs (d2 :: ds2) from rfl, ih,
        List.getLast?_cons_cons]

theorem mem_of_getLast? {α : Type} (l : List α) (a : α) (h : l.getLast? = some a) : a ∈ l := by
  induction l with
  | nil => simp at h
  | cons x xs ih =>
    cases xs with
    | nil =>
      simp only [List.getLast?_singleton, Option.some.injEq] at h
      subst h
      exact List.mem_singleton_self x
    | cons y ys =>
      rw [List.getLast?_cons_cons] at h
      exact List.mem_cons_of_mem x (ih h)

theorem sigOf_lt10 (n : ℕ) : ∀ d ∈ sigOf n, d < 10 := by
  intro d hd
  exact digitsFuel_all_lt 400 n d (mem_dropWhile_imp_mem _ _ _ (List.mem_reverse.mp hd))

theorem natDigits_split (n : ℕ) (hb : n < 10 ^ 400) :
    n = 10 ^ ((natDigits n).takeWhile (· == 0)).length
        * ofDigits10 ((natDigits n).dropWhile (· == 0)) := by
  have hds : ofDigits10 (natDigits n) = n := ofDigits10_digitsFuel 400 n hb
  have hTS := List.takeWhile_append_dropWhile (p := (· == 0)) (l := natDigits n)
  have hT0 : ∀ d ∈ (natDigits n).takeWhile (· == 0), d = 0 := by
    intro d hd
    have := mem_takeWhile_pred _ _ _ hd
    simpa using this
  conv_lhs => rw [← hds, ← hTS]
  rw [ofDigits10_append, ofDigits10_all_zero _ hT0]
  omega

theorem sigOf_ne_nil (n : ℕ) (hn : n ≠ 0) (hb : n < 10 ^ 400) : sigOf n ≠ [] := by
  unfold sigOf
  intro h
  have h2 : (natDigits n).dropWhile (· == 0) = [] := by simpa using h
  have h3 := natDigits_split n hb
  rw [h2] at h3
  simp only [ofDigits10] at h3
  omega

theorem sigOf_getLast_ne_zero (n : ℕ) (d : ℕ) (h : (sigOf n).getLast? = some d) : d ≠ 0 := by
  unfold sigOf at h
  rw [List.getLast?_reverse] at h
  cases hS : (natDigits n).dropWhile (· == 0) with
  | nil => rw [hS] at h; simp at h
  | cons x xs =>
    rw [hS] at h
    simp only [List.head?_cons, Option.some.injEq] at h
    subst h
    have hx := dropWhile_head_false (· == 0) (natDigits n) x xs hS
    simpa using hx

theorem digitChar_ne_zero (d : ℕ) (h10 : d < 10) (h0 : d ≠ 0) : digitChar d ≠ '0' := by
  interval_cases d
  · exact absurd rfl h0
  all_goals decide

theorem digitChar_ne_dot (d : ℕ) (h10 : d < 10) : digitChar d ≠ '.' := by
  interval_cases d <;> decide

theorem dot_not_mem_digits (cs : List Char) (h : ∀ c ∈ cs, isDigitCh c = true) : '.' ∉ cs := by
  intro hc
  exact absurd (h '.' hc) (by decide)

theorem mem_e_decSciChars (sig : List ℕ) (e : ℤ) : 'e' ∈ decSciChars sig e := by
  unfold decSciChars
  simp

/-- The last character of the significant digits of `n`, printed, is a
non-zero digit. -/
theorem getLast?_chs_sigOf (n : ℕ) (hn : n ≠ 0) (hb : n < 10 ^ 400) (c : Char)
    (h : (chs (sigOf n)).getLast? = some c) : c ≠ '0' ∧ c ≠ '.' := by
  rw [getLast?_chs] at h
  cases hlast : (sigOf n).getLast? with
  | none => rw [hlast] at h; simp at h
  | some d =>
    rw [hlast] at h
    simp only [Option.map_some', Option.some.injEq] at h
    subst h
    have hd10 : d < 10 := sigOf_lt10 n d (mem_of_getLast? _ _ hlast)
    have hd0 : d ≠ 0 := sigOf_getLast_ne_zero n d hlast
    exact ⟨digitChar_ne_zero d hd10 hd0, digitChar_ne_dot d hd10⟩

theorem chs_sigOf_ne_nil (n : ℕ) (hn : n ≠ 0) (hb : n < 10 ^ 400) : chs (sigOf n) ≠ [] := by
  intro h
  exact sigOf_ne_nil n hn hb (by simpa [chs] using h)

/-- In positional notation with a decimal point and no exponent, the printed
body neither ends in `'0'` nor in `'.'`. -/
theorem decBodyChars_no_trailing (n : ℕ) (hn : n ≠ 0) (hb : n < 10 ^ 400)
    (hdot : '.' ∈ decBodyChars n) (hnoe : 'e' ∉ decBodyChars n) :
    (decBodyChars n).getLast? ≠ some '0' ∧ (decBodyChars n).getLast? ≠ some '.' := by
  have hlast_good : ∀ o : Option Char, o = (chs (sigOf n)).getLast? →
      o ≠ some '0' ∧ o ≠ some '.' := by
    intro o ho
    subst ho
    cases hlast : (chs (sigOf n)).getLast? with
    | none => constructor <;> simp
    | some c =>
      have hc := getLast?_chs_sigOf n hn hb c hlast
      constructor <;> simp [hc.1, hc.2]
  by_cases hcond : ((natDigits n).length : ℤ) - 9 ≤ -7 ∨ 21 ≤ ((natDigits n).length : ℤ) - 9
  · exfalso
    apply hnoe
    unfold decBodyChars
    rw [if_pos hcond]
    exact mem_e_decSciChars _ _
  · have hbody : decBodyChars n = decFixedChars (sigOf n) (((natDigits n).length : ℤ) - 9) := by
      unfold decBodyChars
      rw [if_neg hcond]
    rw [hbody] at hdot ⊢
    unfold decFixedChars at hdot ⊢
    by_cases he : (0 : ℤ) ≤ ((natDigits n).length : ℤ) - 9
    · rw [if_pos he] at hdot ⊢
      by_cases hfits : (sigOf n).length ≤ ((((natDigits n)).length : ℤ) - 9).toNat + 1
      · rw [if_pos hfits] at hdot
        exfalso
        apply dot_not_mem_digits _ ?_ hdot
        intro c hc
        rcases List.mem_append.mp hc with h | h
        · exact mem_chs_digit _ (sigOf_lt10 n) c h
        · exact mem_zeros_digit _ c h
      · rw [if_neg hfits] at hdot ⊢
        have hdropne : chs ((sigOf n).drop (((((natDigits n)).length : ℤ) - 9).toNat + 1)) ≠ [] := by
          intro h
          have h2 : (sigOf n).drop (((((natDigits n)).length : ℤ) - 9).toNat + 1) = [] := by
            simpa [chs] using h
          rw [List.drop_eq_nil_iff] at h2
          omega
        have hglast : (chs ((sigOf n).take (((((natDigits n)).length : ℤ) - 9).toNat + 1))
            ++ '.' :: chs ((sigOf n).drop (((((natDigits n)).length : ℤ) - 9).toNat + 1))).getLast?
            = (chs (sigOf n)).getLast? := by
          rw [getLast?_append_right _ _ (by simp)]
          rw [show ('.' :: chs ((sigOf n).drop (((((natDigits n)).length : ℤ) - 9).toNat + 1)))
              = ['.'] ++ chs ((sigOf n).drop (((((natDigits n)).length : ℤ) - 9).toNat + 1))
              from rfl]
          rw [getLast?_append_right _ _ hdropne]
          rw [getLast?_chs, getLast?_chs]
          congr 1
          conv_rhs => rw [← List.take_append_drop (((((natDigits n)).length : ℤ) - 9).toNat + 1)
            (sigOf n)]
          rw [getLast?_append_right _ _ (by
            intro h
            exact hdropne (by simp [chs, h]))]
        rw [hglast]
        exact hlast_good _ rfl
    · rw [if_neg he] at hdot ⊢
      have hchne : chs (sigOf n) ≠ [] := chs_sigOf_ne_nil n hn hb
      have hshape : ('0' :: '.' :: (zeros ((((natDigits n).length : ℤ) - 9).natAbs - 1)
          ++ chs (sigOf n)))
          = ['0', '.'] ++ (zeros ((((natDigits n).length : ℤ) - 9).natAbs - 1)
            ++ chs (sigOf n)) := rfl
      rw [hshape, getLast?_append_right _ _ (by
          intro h
          exact hchne (List.append_eq_nil.mp h).2),
        getLast?_append_right _ _ hchne]
      exact hlast_good _ rfl

/-- Accepted values whose rounded value is non-zero but at most `1e-7` in
magnitude are printed in exponent notation. -/
theorem floatToWire_sci (x : ℚ) (s : String) (h : floatToWire x = .ok s)
    (hnz : jsRound8 x ≠ 0) (hsmall : |jsRound8 x| ≤ 1 / 10 ^ 7) : 'e' ∈ s.toList := by
  obtain ⟨_, rfl⟩ := floatToWire_ok_inv x s h
  have hf0 : fixed8Num x ≠ 0 := fun hf => hnz ((jsRound8_eq_zero_iff x).mpr hf)
  have hn10 : (fixed8Num x).toNat ≤ 10 := by
    have habs := abs_jsRound8 x
    rw [habs] at hsmall
    have h2 : (((fixed8Num x).toNat : ℕ) : ℚ) ≤ 10 := by
      rw [div_le_div_iff (by positivity) (by positivity)] at hsmall
      nlinarith
    exact_mod_cast h2
  have hnne : (fixed8Num x).toNat ≠ 0 := by
    have := fixed8Num_nonneg x
    omega
  have hlen : (natDigits (fixed8Num x).toNat).length ≤ 2 :=
    digitsFuel_length_le 400 _ 2 (by omega)
  show 'e' ∈ (decToString (decide (x < 0)) (fixed8Num x).toNat).toList
  rw [show (decToString (decide (x < 0)) (fixed8Num x).toNat).toList
      = decToChars (decide (x < 0)) (fixed8Num x).toNat from rfl]
  unfold decToChars
  rw [if_neg hnne]
  have hbody : decBodyChars (fixed8Num x).toNat
      = decSciChars (sigOf (fixed8Num x).toNat)
          (((natDigits (fixed8Num x).toNat).length : ℤ) - 9) := by
    unfold decBodyChars
    rw [if_pos (Or.inl (by omega))]
  by_cases hneg : decide (x < 0) = true
  · rw [if_pos hneg, hbody]
    exact List.mem_cons_of_mem _ (mem_e_decSciChars _ _)
  · rw [if_neg hneg, hbody]
    exact mem_e_decSciChars _ _

/-! ## Order encoder machinery -/

theorem orderRequestToOrderWire_ok_inv (order : OrderRequest) (asset : ℤ) (w : OrderWire)
    (h : orderRequestToOrderWire order asset = .ok w) :
    floatToWire order.limit_px = .ok w.p ∧ floatToWire order.sz = .ok w.s ∧
    orderTypeToWire order.order_type = .ok w.t ∧ w.a = asset ∧ w.b = order.is_buy ∧
    w.r = order.reduce_only ∧ w.c = order.cloid.map Cloid.toRaw := by
  unfold orderRequestToOrderWire at h
  cases hp : floatToWire order.limit_px with
  | error e => rw [hp] at h; exact absurd h (by simp)
  | ok p =>
    rw [hp] at h
    cases hs : floatToWire order.sz with
    | error e => rw [hs] at h; exact absurd h (by simp)
    | ok s =>
      rw [hs] at h
      cases ht : orderTypeToWire order.order_type with
      | error e => rw [ht] at h; exact absurd h (by simp)
      | ok t =>
        rw [ht] at h
        cases hc : order.cloid with
        | some cl =>
          rw [hc] at h
          injection h with h2
          subst h2
          simp
        | none =>
          rw [hc] at h
          injection h with h2
          subst h2
          simp

/-- `floatToWire(0)` evaluates to `"0"`. -/
theorem floatToWire_zero : floatToWire (0 : ℚ) = .ok "0" := by
  rw [floatToWire_ok_nonneg 0 0 (by norm_num)
    (fixed8Num_eq_nonneg _ _ (by norm_num) (by norm_num) (by norm_num)) (by norm_num)]
  decide

/-- The only error `floatToWire` ever throws is `PrecisionLoss`. -/
theorem floatToWire_error_kind (x : ℚ) (e : Err) (h : floatToWire x = .error e) :
    e = Err.PrecisionLoss := by
  unfold floatToWire at h
  by_cases htol : 1 / 10 ^ 12 ≤ |jsRound8 x - x|
  · rw [if_pos htol] at h
    injection h with h2
    exact h2.symm
  · rw [if_neg htol, if_neg (toFixedStr8_ne_neg0 x)] at h
    exact absurd h (by simp)

/-- On a value that is an exact multiple of `10⁻⁸`, rounding to eight
fractional digits is the identity. -/
theorem jsRound8_representable (x : ℚ) (hrep : representableE8 x) : jsRound8 x = x := by
  obtain ⟨k, rfl⟩ := hrep
  have hfx : fixed8Num ((k : ℚ) / 10 ^ 8) = |k| := by
    unfold fixed8Num
    rw [abs_div, abs_of_nonneg (by positivity : (0 : ℚ) ≤ 10 ^ 8),
      div_mul_cancel₀ _ (by norm_num : (10 : ℚ) ^ 8 ≠ 0),
      show |(k : ℚ)| = ((|k| : ℤ) : ℚ) from by push_cast; ring]
    apply Int.floor_eq_iff.mpr
    constructor
    · push_cast
      linarith
    · push_cast
      linarith
  unfold jsRound8
  rw [hfx]
  by_cases hx : (k : ℚ) / 10 ^ 8 < 0
  · rw [if_pos hx]
    have hkneg : k < 0 := by
      by_contra hge
      push_neg at hge
      have h0 : (0 : ℚ) ≤ (k : ℚ) / 10 ^ 8 :=
        div_nonneg (by exact_mod_cast hge) (by positivity)
      exact absurd hx (not_lt.mpr h0)
    rw [show |k| = -k from abs_of_neg hkneg]
    push_cast
    ring
  · rw [if_neg hx]
    have hknn : 0 ≤ k := by
      by_contra hlt
      push_neg at hlt
      exact hx (div_neg_of_neg_of_pos (by exact_mod_cast hlt) (by positivity))
    rw [show |k| = k from abs_of_nonneg hknn]

/-- The printed characters of an accepted value do not end with a zero digit
or a point when the string is positional with a decimal point. -/
theorem decToChars_no_trailing (neg : Bool) (n : ℕ) (hb : n < 10 ^ 400)
    (hdot : '.' ∈ decToChars neg n) (hnoe : 'e' ∉ decToChars neg n) :
    (decToChars neg n).getLast? ≠ some '0' ∧ (decToChars neg n).getLast? ≠ some '.' := by
  unfold decToChars at hdot hnoe ⊢
  by_cases hn : n = 0
  · rw [if_pos hn] at hdot
    simp at hdot
  · rw [if_neg hn] at hdot hnoe ⊢
    by_cases hneg : neg = true
    · rw [if_pos hneg] at hdot hnoe ⊢
      have hdot2 : '.' ∈ decBodyChars n := by
        rcases List.mem_cons.mp hdot with h | h
        · exact absurd h (by decide)
        · exact h
      have hnoe2 : 'e' ∉ decBodyChars n := fun hmem => hnoe (List.mem_cons_of_mem _ hmem)
      have hbody := decBodyChars_no_trailing n hn hb hdot2 hnoe2
      have hbne : decBodyChars n ≠ [] := by
        intro h
        rw [h] at hdot2
        simp at hdot2
      rw [show ('-' :: decBodyChars n) = ['-'] ++ decBodyChars n from rfl,
        getLast?_append_right _ _ hbne]
      exact hbody
    · rw [if_neg hneg] at hdot hnoe ⊢
      exact decBodyChars_no_trailing n hn hb hdot hnoe

/-- Whether a JavaScript optional field holds an actual value (is populated,
as opposed to absent or undefined). -/
def JsOpt.isVal {α : Type} : JsOpt α → Bool
  | .val _ => true
  | _ => false

/-- Modelled from the claim wording: an ASCII hexadecimal digit. -/
def isHexChar (c : Char) : Bool :=
  (decide (48 ≤ c.toNat) && decide (c.toNat ≤ 57))
    || (decide (97 ≤ c.toNat) && decide (c.toNat ≤ 102))
    || (decide (65 ≤ c.toNat) && decide (c.toNat ≤ 70))

/-! ## Claims -/

/-- C1: for every order request without a cloid, the encoder produces a wire
record whose fields are exactly instrument index `a`, buy flag `b`, price
string `p`, size string `s`, reduce-only flag `r` and order-type wire `t`,
with the optional client-id key `c` entirely absent; in particular the
example request (BTC, buy, size 0.001, price 90000, not reduce-only, Gtc
limit) at instrument index 0 encodes to exactly the expected record with no
`c` field. -/
theorem C1_order_encoder_no_cloid :
    (∀ (order : OrderRequest) (asset : ℤ) (w : OrderWire), order.cloid = none →
      orderRequestToOrderWire order asset = .ok w →
      w.c = none ∧ w.a = asset ∧ w.b = order.is_buy ∧ w.r = order.reduce_only ∧
      floatToWire order.limit_px = .ok w.p ∧ floatToWire order.sz = .ok w.s ∧
      orderTypeToWire order.order_type = .ok w.t)
    ∧ orderRequestToOrderWire exampleOrderRequest 0
        = .ok { a := 0, b := true, p := "90000", s := "0.001", r := false,
                t := { limit := .val { tif := .Gtc }, trigger := .absent }, c := none } := by
  constructor
  · intro order asset w hcl hok
    obtain ⟨hp, hs, ht, ha, hb, hr, hc⟩ := orderRequestToOrderWire_ok_inv order asset w hok
    rw [hcl] at hc
    exact ⟨by simpa using hc, ha, hb, hr, hp, hs, ht⟩
  · have h1 : floatToWire exampleOrderRequest.limit_px = .ok "90000" := floatToWire_90000
    have h2 : floatToWire exampleOrderRequest.sz = .ok "0.001" := floatToWire_milli
    have h3 : orderTypeToWire exampleOrderRequest.order_type
        = .ok { limit := .val { tif := .Gtc }, trigger := .absent } := rfl
    unfold orderRequestToOrderWire
    rw [h1, h2, h3]
    rfl

/-- Witness for C1 at the example request and instrument index 0. -/
theorem C1_order_encoder_no_cloid_witness :
    ({ a := 0, b := true, p := "90000", s := "0.001", r := false,
       t := { limit := .val { tif := .Gtc }, trigger := .absent }, c := none } : OrderWire).c
      = none :=
  (C1_order_encoder_no_cloid.1 exampleOrderRequest 0 _ rfl C1_order_encoder_no_cloid.2).1

/-- C2 counterexample: `1e-13` needs more than eight fractional decimal
digits to be written exactly, yet the encoder accepts it (returning `"0"`)
because its rounding error `1e-13` is below the `1e-12` tolerance — refuting
the claim that every such value fails with `PrecisionLoss`. -/
theorem C2_precision_loss_counterexample :
    ¬ representableE8 ((1 : ℚ) / 10 ^ 13)
    ∧ finiteDouble ((1 : ℚ) / 10 ^ 13)
    ∧ floatToWire ((1 : ℚ) / 10 ^ 13) = .ok "0" := by
  refine ⟨?_, ?_, floatToWire_em13⟩
  · rintro ⟨k, hk⟩
    have h1 : (k : ℚ) * 10 ^ 5 = 1 := by
      field_simp at hk
      linarith
    have h2 : k * 10 ^ 5 = 1 := by exact_mod_cast h1
    omega
  · unfold finiteDouble
    rw [abs_of_nonneg (by norm_num)]
    norm_num

/-- C2 (amended): `floatToWire` fails with `PrecisionLoss` exactly when the
input rounded to eight fractional digits and parsed back differs from the
input by at least `1e-12`; a value needing more than eight fractional digits
whose rounding error is below the tolerance (such as `1e-13`) is accepted
rather than rejected. -/
theorem C2_precision_loss_iff :
    (∀ x : ℚ, floatToWire x = .error Err.PrecisionLoss ↔ 1 / 10 ^ 12 ≤ |jsRound8 x - x|)
    ∧ floatToWire ((1 : ℚ) / 10 ^ 13) = .ok "0" :=
  ⟨floatToWire_error_iff, floatToWire_em13⟩

/-- Witness for C2 at the rejected input `0.000123456`. -/
theorem C2_precision_loss_iff_witness :
    floatToWire ((123456 : ℚ) / 10 ^ 9) = .error Err.PrecisionLoss := by
  apply (C2_precision_loss_iff.1 ((123456 : ℚ) / 10 ^ 9)).mpr
  rw [jsRound8_eq _ 12346 (fixed8Num_eq_nonneg _ _ (by norm_num) (by norm_num) (by norm_num))]
  rw [if_neg (by norm_num : ¬ (123456 : ℚ) / 10 ^ 9 < 0),
    show ((12346 : ℤ) : ℚ) / 10 ^ 8 - 123456 / 10 ^ 9 = 1 / 250000000 by norm_num,
    abs_of_nonneg (by norm_num)]
  norm_num

/-- C3: every finite value representable with at most eight fractional
decimal digits is encoded successfully and the encoded string parses back to
exactly the input value (round-trip law). -/
theorem C3_roundtrip :
    ∀ x : ℚ, finiteDouble x → representableE8 x →
      ∃ s, floatToWire x = .ok s ∧ parseDec s = some x := by
  intro x hfin hrep
  have hjr := jsRound8_representable x hrep
  have hok : floatToWire x = .ok (decToString (decide (x < 0)) (fixed8Num x).toNat) := by
    unfold floatToWire
    rw [hjr, if_neg (by rw [sub_self, abs_zero]; norm_num), if_neg (toFixedStr8_ne_neg0 x)]
  refine ⟨_, hok, ?_⟩
  rw [floatToWire_exact x _ hfin hok, hjr]

/-- Witness for C3 at `x = 0.001`. -/
theorem C3_roundtrip_witness :
    ∃ s, floatToWire ((1 : ℚ) / 1000) = .ok s ∧ parseDec s = some ((1 : ℚ) / 1000) :=
  C3_roundtrip ((1 : ℚ) / 1000)
    (by unfold finiteDouble; rw [abs_of_nonneg (by norm_num)]; norm_num)
    ⟨100000, by norm_num⟩

/-- C4: encoding zero yields `"0"`, and every accepted input whose rounded
value is zero (including tiny negative inputs such as `-1e-13`) is encoded
as `"0"` — no negative-zero string is ever returned. -/
theorem C4_no_negative_zero :
    (∀ x s, floatToWire x = .ok s → jsRound8 x = 0 → s = "0")
    ∧ floatToWire (0 : ℚ) = .ok "0" ∧ floatToWire (-(1 : ℚ) / 10 ^ 13) = .ok "0" :=
  ⟨floatToWire_zero_out, floatToWire_zero, floatToWire_neg_em13⟩

/-- Witness for C4 at `x = -1e-13`. -/
theorem C4_no_negative_zero_witness : ("0" : String) = "0" :=
  C4_no_negative_zero.1 (-(1 : ℚ) / 10 ^ 13) "0" C4_no_negative_zero.2.2
    (by rw [jsRound8_eq _ 0 (fixed8Num_eq_neg _ _ (by norm_num) (by norm_num) (by norm_num))]
        split <;> norm_num)

/-- C5: every accepted value is printed exactly (the output string parses
back to the rounded value), and a positional output with a decimal point and
no exponent marker has no trailing zero and no trailing point; in particular
`encode(0.001) = "0.001"` and `encode(90000) = "90000"`. -/
theorem C5_canonical_output :
    (∀ x s, finiteDouble x → floatToWire x = .ok s →
      parseDec s = some (jsRound8 x) ∧
      ('.' ∈ s.toList → 'e' ∉ s.toList →
        s.toList.getLast? ≠ some '0' ∧ s.toList.getLast? ≠ some '.'))
    ∧ floatToWire ((1 : ℚ) / 1000) = .ok "0.001" ∧ floatToWire (90000 : ℚ) = .ok "90000" := by
  refine ⟨?_, floatToWire_milli, floatToWire_90000⟩
  intro x s hfin hok
  refine ⟨floatToWire_exact x s hfin hok, ?_⟩
  intro hdot hnoe
  obtain ⟨_, hs⟩ := floatToWire_ok_inv x s hok
  subst hs
  rw [show (decToString (decide (x < 0)) (fixed8Num x).toNat).toList
      = decToChars (decide (x < 0)) (fixed8Num x).toNat from rfl] at hdot hnoe ⊢
  exact decToChars_no_trailing _ _ (fixed8Num_toNat_lt x hfin) hdot hnoe

/-- Witness for C5 at `x = 0.001`, output `"0.001"`. -/
theorem C5_canonical_output_witness :
    parseDec "0.001" = some (jsRound8 ((1 : ℚ) / 1000)) ∧
    ('.' ∈ ("0.001" : String).toList → 'e' ∉ ("0.001" : String).toList →
      ("0.001" : String).toList.getLast? ≠ some '0'
        ∧ ("0.001" : String).toList.getLast? ≠ some '.') :=
  C5_canonical_output.1 ((1 : ℚ) / 1000) "0.001"
    (by unfold finiteDouble; rw [abs_of_nonneg (by norm_num)]; norm_num)
    C5_canonical_output.2.1

/-- C6 counterexample: an order type whose `limit` key is present with an
undefined value and whose `trigger` key is absent has neither variant
populated, yet the normalizer succeeds instead of failing with
`InvalidOrderType` — the claimed equivalence fails. -/
theorem C6_invalid_order_type_counterexample :
    JsOpt.isVal ({ limit := .undef, trigger := .absent } : OrderType).limit = false
    ∧ JsOpt.isVal ({ limit := .undef, trigger := .absent } : OrderType).trigger = false
    ∧ orderTypeToWire { limit := .undef, trigger := .absent }
        = .ok { limit := .undef, trigger := .absent } :=
  ⟨rfl, rfl, by decide⟩

/-- C6 (amended): the normalizer fails with `InvalidOrderType` exactly when
the `limit` key is absent and the `trigger` key holds no populated value; in
that case no wire record is produced, and the error is distinct from
`PrecisionLoss`. -/
theorem C6_invalid_order_type_iff :
    (∀ ot : OrderType, orderTypeToWire ot = .error Err.InvalidOrderType ↔
      (keyPresent ot.limit = false ∧ ∀ t, ot.trigger ≠ JsOpt.val t))
    ∧ Err.InvalidOrderType ≠ Err.PrecisionLoss := by
  refine ⟨?_, by decide⟩
  intro ot
  unfold orderTypeToWire
  by_cases hk : keyPresent ot.limit = true
  · rw [if_pos hk]
    constructor
    · intro h
      exact absurd h (by simp)
    · rintro ⟨h1, _⟩
      rw [h1] at hk
      exact Bool.noConfusion hk
  · rw [if_neg hk]
    have hk' : keyPresent ot.limit = false := by
      cases hb : keyPresent ot.limit
      · rfl
      · exact absurd hb hk
    cases htr : ot.trigger with
    | val t =>
      constructor
      · intro h
        have h2 : (floatToWire t.triggerPx).map
            (fun px => OrderTypeWire.mk JsOpt.absent
              (JsOpt.val (TriggerOrderTypeWire.mk px t.isMarket t.tpsl)))
            = Except.error Err.InvalidOrderType := h
        exfalso
        cases hf : floatToWire t.triggerPx with
        | ok px =>
          rw [hf] at h2
          exact absurd h2 (by simp [Except.map])
        | error e =>
          rw [hf] at h2
          have he : e = Err.PrecisionLoss := floatToWire_error_kind _ _ hf
          subst he
          simp [Except.map] at h2
      · rintro ⟨_, h2⟩
        exact absurd rfl (h2 t)
    | absent =>
      constructor
      · intro _
        exact ⟨hk', nofun⟩
      · intro _
        rfl
    | undef =>
      constructor
      · intro _
        exact ⟨hk', nofun⟩
      · intro _
        rfl

/-- Witness for C6 at an order type with both keys absent. -/
theorem C6_invalid_order_type_iff_witness :
    orderTypeToWire { limit := .absent, trigger := .absent } = .error Err.InvalidOrderType :=
  (C6_invalid_order_type_iff.1 _).mpr ⟨rfl, nofun⟩

/-- C7 counterexample: a `0x`-prefixed payload of 32 non-hexadecimal
characters passes `Cloid` validation — only the prefix and the payload
length are checked, not that the characters are hex digits. -/
theorem C7_cloid_counterexample :
    Cloid.fromStr "0xgggggggggggggggggggggggggggggggg"
      = .ok ⟨"0xgggggggggggggggggggggggggggggggg"⟩
    ∧ (("0xgggggggggggggggggggggggggggggggg" : String).toList.drop 2).length = 32
    ∧ (("0xgggggggggggggggggggggggggggggggg" : String).toList.drop 2).all isHexChar = false :=
  ⟨by decide, by decide, by decide⟩

/-- C7 (amended): `Cloid` construction fails with `InvalidCloidFormat`
exactly when the `0x` prefix is absent or the payload after it is not
exactly 32 characters long (hex-ness of the characters is not checked);
`fromInt 1` yields the prefix followed by 31 zero digits and a `1`, and a
31-character payload fails. -/
theorem C7_cloid_validation :
    (∀ s : String, Cloid.fromStr s = .ok ⟨s⟩ ↔
      (startsWith0x s = true ∧ (s.toList.drop 2).length = 32))
    ∧ (∀ s : String, Cloid.fromStr s = .ok ⟨s⟩
        ∨ Cloid.fromStr s = .error Err.InvalidCloidFormat)
    ∧ Cloid.fromInt 1 = .ok ⟨"0x00000000000000000000000000000001"⟩
    ∧ Cloid.fromStr "0x0000000000000000000000000000001" = .error Err.InvalidCloidFormat := by
  refine ⟨?_, ?_, by decide, by decide⟩
  · intro s
    unfold Cloid.fromStr cloidValidate
    by_cases h1 : startsWith0x s = false
    · rw [if_pos h1]
      constructor
      · intro h
        exact absurd h (by simp)
      · rintro ⟨h2, _⟩
        rw [h2] at h1
        exact Bool.noConfusion h1
    · rw [if_neg h1]
      have h1' : startsWith0x s = true := by
        cases hb : startsWith0x s
        · exact absurd hb h1
        · rfl
      by_cases h2 : (s.toList.drop 2).length ≠ 32
      · rw [if_pos h2]
        constructor
        · intro h
          exact absurd h (by simp)
        · rintro ⟨_, h3⟩
          exact absurd h3 h2
      · rw [if_neg h2]
        push_neg at h2
        exact ⟨fun _ => ⟨h1', h2⟩, fun _ => rfl⟩
  · intro s
    unfold Cloid.fromStr cloidValidate
    by_cases h1 : startsWith0x s = false
    · rw [if_pos h1]
      exact Or.inr rfl
    · rw [if_neg h1]
      by_cases h2 : (s.toList.drop 2).length ≠ 32
      · rw [if_pos h2]
        exact Or.inr rfl
      · rw [if_neg h2]
        exact Or.inl rfl

/-- Witness for C7 at a valid 32-zero payload. -/
theorem C7_cloid_validation_witness :
    Cloid.fromStr "0x00000000000000000000000000000000"
      = .ok ⟨"0x00000000000000000000000000000000"⟩ :=
  (C7_cloid_validation.1 _).mpr ⟨by decide, by decide⟩

/-- C8 counterexample: the assembler takes no grouping argument and always
sets grouping `"na"` — the produced grouping is not the caller-supplied mode
`"normalTpsl"` the claim says it would carry. -/
theorem C8_grouping_counterexample :
    (orderWiresToOrderAction []).grouping = "na" ∧ ("na" : String) ≠ "normalTpsl" :=
  ⟨rfl, by decide⟩

/-- C8 (amended): the assembler returns the fixed discriminator `"order"`,
the input wire records in exactly their input order (duplicates permitted,
nothing added, removed or reordered), and the fixed grouping `"na"`; it has
no caller-supplied grouping parameter. -/
theorem C8_assembler :
    ∀ ws : List OrderWire, orderWiresToOrderAction ws
      = { type := "order", orders := ws, grouping := "na" } := fun _ => rfl

/-- C9 counterexample: `1e-13` is accepted, non-zero and of magnitude at most
`1e-7`, yet its encoding `"0"` contains no exponent marker — refuting the
claim as stated over input values. -/
theorem C9_sci_counterexample :
    floatToWire ((1 : ℚ) / 10 ^ 13) = .ok "0"
    ∧ ((1 : ℚ) / 10 ^ 13) ≠ 0
    ∧ |(1 : ℚ) / 10 ^ 13| ≤ 1 / 10 ^ 7
    ∧ 'e' ∉ ("0" : String).toList := by
  refine ⟨floatToWire_em13, by norm_num, ?_, by decide⟩
  rw [abs_of_nonneg (by norm_num)]
  norm_num

/-- C9 (amended): for every accepted input whose rounded value is non-zero
with magnitude at most `1e-7`, the output string is in exponent notation
(contains the marker `e`); in particular `encode(1e-7) = "1e-7"`. -/
theorem C9_sci_output :
    (∀ x s, floatToWire x = .ok s → jsRound8 x ≠ 0 → |jsRound8 x| ≤ 1 / 10 ^ 7 →
      'e' ∈ s.toList)
    ∧ floatToWire ((1 : ℚ) / 10 ^ 7) = .ok "1e-7" :=
  ⟨floatToWire_sci, floatToWire_em7⟩

/-- Witness for C9 at `x = 1e-7`. -/
theorem C9_sci_output_witness : 'e' ∈ ("1e-7" : String).toList :=
  C9_sci_output.1 ((1 : ℚ) / 10 ^ 7) "1e-7" C9_sci_output.2
    (by rw [jsRound8_eq _ 10 (fixed8Num_eq_nonneg _ _ (by norm_num) (by norm_num) (by norm_num)),
          if_neg (by norm_num : ¬ (1 : ℚ) / 10 ^ 7 < 0)]
        norm_num)
    (by rw [jsRound8_eq _ 10 (fixed8Num_eq_nonneg _ _ (by norm_num) (by norm_num) (by norm_num)),
          if_neg (by norm_num : ¬ (1 : ℚ) / 10 ^ 7 < 0),
          abs_of_nonneg (by norm_num)]
        norm_num)

/-- C10: mere presence of the `limit` key — even with an undefined value, and
even when a populated trigger variant is also present — always selects the
limit branch: the normalizer returns the limit value unchanged, never the
trigger wire variant and never the `InvalidOrderType` error. -/
theorem C10_limit_key_presence :
    ∀ ot : OrderType, keyPresent ot.limit = true →
      orderTypeToWire ot = .ok { limit := jsRead ot.limit, trigger := .absent } := by
  intro ot h
  unfold orderTypeToWire
  rw [if_pos h]

/-- Witness for C10 at an order type with an undefined limit value and a
populated trigger. -/
theorem C10_limit_key_presence_witness :
    orderTypeToWire
        { limit := .undef,
          trigger := .val { triggerPx := 1, isMarket := true, tpsl := .tp } }
      = .ok { limit := .undef, trigger := .absent } :=
  C10_limit_key_presence _ rfl
